import Mathlib

/-!
Shallow embedding of the plan-generation core of the study-planner backend
(`generate_simple_plan` and `pick_hint` in `app.py`), together with proofs
about its behaviour.

The Python function receives three parallel lists (`courses`, `topics`,
`difficulties`) and a `daily_hours` value that may be absent, a number, or a
string.  The inner `while remaining > 0` loop of the Python code is modelled
with explicit fuel: the model returns `Option.none` exactly when the Python
loop would run forever (which happens when the daily quota is ≤ 0, see the
lemmas below), and `some` of the produced plan otherwise.
-/

namespace StudyPlanner

/-- The values Python may receive as `daily_hours` whose `float(...)`
parse, if it succeeds, is FINITE: `None`/absent, a finite number, or a
string together with the result of `float(...)` on it (`Option.none` when
`float` raises `ValueError`).  Inputs whose parse is non-finite
(`"inf"`, `"nan"`, JSON `Infinity`, ...) make app.py line 630 raise and
are modelled by the full input space `HoursInput` further below, into
which `HoursVal` embeds via `HoursVal.toInput`. -/
inductive HoursVal where
  | none : HoursVal
  | num : ℚ → HoursVal
  | str : String → Option ℚ → HoursVal
deriving DecidableEq

/-- `hours = float(daily_hours) if daily_hours else 2.0` wrapped in
`try/except` (app.py lines 625-628).  `None`, numeric `0` and the empty
string are falsy; an unparsable truthy string raises and is caught. -/
def parseHours : HoursVal → ℚ
  | .none => 2
  | .num q => if q = 0 then 2 else q
  | .str s p => if s = "" then 2 else p.getD 2

/-- `daily_quota = int(hours * 60)` (app.py line 630) on the finite-parse
fragment `HoursVal`, where `int` cannot raise: with `hours = n/d` in
lowest terms, `hours * 60 = (60·n)/d`, and Python `int` truncates that ratio
towards zero, which is exactly `Int.tdiv` (truncation is unaffected by the
ratio not being in lowest terms).  On the full input space, where this
line raises for non-finite `hours`, see `dailyQuotaFull`. -/
def dailyQuota (dh : HoursVal) : ℤ :=
  Int.tdiv ((parseHours dh).num * 60) ((parseHours dh).den : ℤ)

/-- `pick_hint` (app.py lines 675-681): dictionary lookup with a default. -/
def pick_hint (level : String) : String :=
  if level = "easy" then "Quick win 🎯 - Build confidence with this topic"
  else if level = "medium" then "Steady pace 🚀 - Focus on core concepts"
  else if level = "hard" then "Deep focus 🔥 - Break into smaller parts"
  else "Stay focused! ⭐"

/-- `break_after = 10 if chunk >= 60 else 5 if chunk >= 30 else None`
(app.py line 661). -/
def break_after_rule (chunk : ℤ) : Option ℤ :=
  if chunk ≥ 60 then some 10 else if chunk ≥ 30 then some 5 else Option.none

/-- The difficulty adjustment applied to `suggested`
(app.py lines 644-647): `-5` for `"easy"`, `+10` for `"hard"`, `0` for
anything else. -/
def diffAdjust (level : String) : ℤ :=
  if level = "easy" then -5 else if level = "hard" then 10 else 0

/-- `suggested = max(15, base ± adjustment)` (app.py lines 643-649). -/
def suggestedFor (base : ℤ) (level : String) : ℤ :=
  max 15 (base + diffAdjust level)

/-- One entry appended to `plan` (app.py lines 663-671), with the day kept
as its number; the external string form is produced by `render`. -/
structure CoreChunk where
  day : ℤ
  course : String
  topic : String
  difficulty : String
  suggested_minutes : ℤ
  ai_hint : String
  break_after : Option ℤ
deriving DecidableEq

/-- The mutable loop state of `generate_simple_plan`: the current `day` and
`used_today` counters (app.py lines 636-637). -/
structure St where
  day : ℤ
  used : ℤ
deriving DecidableEq

/-- The day-rollover step at the top of the inner loop
(app.py lines 653-655). -/
def rollover (quota : ℤ) (st : St) : St :=
  if st.used ≥ quota then ⟨st.day + 1, 0⟩ else st

/-- The inner `while remaining > 0` loop (app.py lines 652-671), with fuel.
`Option.none` means the fuel ran out before the loop condition failed. -/
def innerLoop (quota : ℤ) (course topic level : String) :
    ℕ → ℤ → St → List CoreChunk → Option (List CoreChunk × St)
  | 0, remaining, st, plan =>
      if remaining ≤ 0 then some (plan, st) else Option.none
  | f + 1, remaining, st, plan =>
      if remaining ≤ 0 then some (plan, st)
      else
        let st1 := rollover quota st
        let chunk := min remaining (quota - st1.used)
        innerLoop quota course topic level f (remaining - chunk)
          ⟨st1.day, st1.used + chunk⟩
          (plan ++ [⟨st1.day, course, topic, level, chunk, pick_hint level,
            break_after_rule chunk⟩])

/-- The `for i, topic in enumerate(topics)` loop (app.py lines 639-671).
The fuel handed to the inner loop is `suggested.toNat`, which is proved
below to be sufficient whenever the quota is positive; for a non-positive
quota the inner loop diverges for every amount of fuel. -/
def planTopics (quota base : ℤ) (courses difficulties : List String) :
    List String → ℕ → St → List CoreChunk → Option (List CoreChunk × St)
  | [], _, st, plan => some (plan, st)
  | topic :: rest, i, st, plan =>
      let course := courses.getD i "General"
      let level := difficulties.getD i "medium"
      let suggested := suggestedFor base level
      match innerLoop quota course topic level suggested.toNat suggested st plan with
      | Option.none => Option.none
      | some (plan2, st2) =>
          planTopics quota base courses difficulties rest (i + 1) st2 plan2

/-- The body of `generate_simple_plan` after the quota has been computed
(app.py lines 631-673), with the day number not yet rendered to a string. -/
def generateCoreQ (quota : ℤ) (courses topics difficulties : List String) :
    Option (List CoreChunk) :=
  if topics = [] then some []
  else
    let base := max 20 (Int.fdiv quota (topics.length : ℤ))
    (planTopics quota base courses difficulties topics 0 ⟨1, 0⟩ []).map Prod.fst

/-- `generate_simple_plan` up to the external rendering of the day number
(app.py lines 624-673). -/
def generateCore (courses topics difficulties : List String)
    (daily_hours : HoursVal) : Option (List CoreChunk) :=
  generateCoreQ (dailyQuota daily_hours) courses topics difficulties

/-- The record actually returned to the caller, with
`"day": f"Day {day}"` (app.py line 664). -/
structure PlanRecord where
  day : String
  course : String
  topic : String
  difficulty : String
  suggested_minutes : ℤ
  ai_hint : String
  break_after : Option ℤ
deriving DecidableEq

/-- Formatting of one plan entry (app.py lines 663-671). -/
def render (c : CoreChunk) : PlanRecord :=
  ⟨"Day " ++ toString c.day, c.course, c.topic, c.difficulty,
    c.suggested_minutes, c.ai_hint, c.break_after⟩

/-- `generate_simple_plan` (app.py lines 624-673).  `Option.none` models
non-termination of the Python code. -/
def generate_simple_plan (courses topics difficulties : List String)
    (daily_hours : HoursVal) : Option (List PlanRecord) :=
  (generateCore courses topics difficulties daily_hours).map (List.map render)

/-- Total minutes the plan schedules on day `d`; tracks the value of the
`used_today` counter over a day. -/
def daySum (cs : List CoreChunk) (d : ℤ) : ℤ :=
  ((cs.filter (fun c => c.day == d)).map CoreChunk.suggested_minutes).sum

/-! ### The full input space, including non-finite `float()` parses

`float("inf")`, `float("-inf")` and `float("nan")` succeed, so such
strings (and the corresponding float values, e.g. from JSON `Infinity`)
pass the `try/except` on app.py lines 625-628 untouched; the subsequent
`int(hours * 60)` on line 630 sits OUTSIDE the `try/except` and raises
(`OverflowError` for `±inf`, `ValueError` for `nan`).  The following
definitions model this. -/

/-- A Python float: either a finite value (idealized as an exact
rational) or one of the non-finite values produced by `float("inf")`,
`float("-inf")` and `float("nan")`. -/
inductive PyFloat where
  | finite : ℚ → PyFloat
  | posInf : PyFloat
  | negInf : PyFloat
  | nan : PyFloat
deriving DecidableEq

/-- The full space of values Python may receive as `daily_hours`:
`None`/absent, a number (possibly non-finite), or a string together with
the result of `float(...)` on it (`Option.none` when `float` raises
`ValueError`; `some .posInf` for `"inf"`, `some .nan` for `"nan"`, ...). -/
inductive HoursInput where
  | none : HoursInput
  | num : PyFloat → HoursInput
  | str : String → Option PyFloat → HoursInput
deriving DecidableEq

/-- `hours = float(daily_hours) if daily_hours else 2.0` wrapped in
`try/except` (app.py lines 625-628), on the full input space.  `None`,
numeric `0.0` and the empty string are falsy; `inf` and `nan` are truthy;
an unparsable truthy string raises inside the `try` and is caught. -/
def parseHoursFull : HoursInput → PyFloat
  | .none => .finite 2
  | .num x => if x = .finite 0 then .finite 2 else x
  | .str s p => if s = "" then .finite 2 else p.getD (.finite 2)

/-- `daily_quota = int(hours * 60)` (app.py line 630) on the full input
space: `Option.none` models the uncaught `OverflowError`/`ValueError`
raised for non-finite `hours`; finite hours are truncated towards zero
exactly as in `dailyQuota`. -/
def dailyQuotaFull (dh : HoursInput) : Option ℤ :=
  match parseHoursFull dh with
  | .finite q => some (Int.tdiv (q.num * 60) (q.den : ℤ))
  | _ => Option.none

/-- The observable outcome of a call to `generate_simple_plan`: an
uncaught exception from `int(hours * 60)`, non-termination of the inner
`while` loop, or a returned plan. -/
inductive Outcome where
  | raised : Outcome
  | hangs : Outcome
  | ok : List PlanRecord → Outcome
deriving DecidableEq

/-- `generate_simple_plan` (app.py lines 624-673) on the full input
space, separating the two failure modes: `.raised` when line 630 raises
(which happens before the empty-topics check on line 631), `.hangs` when
the inner `while` loop never terminates. -/
def generate_simple_plan_full (courses topics difficulties : List String)
    (daily_hours : HoursInput) : Outcome :=
  match dailyQuotaFull daily_hours with
  | Option.none => .raised
  | some quota =>
      match generateCoreQ quota courses topics difficulties with
      | Option.none => .hangs
      | some core => .ok (core.map render)

/-- The inclusion of the finite-parse inputs `HoursVal` into the full
input space. -/
def HoursVal.toInput : HoursVal → HoursInput
  | .none => .none
  | .num q => .num (.finite q)
  | .str s p => .str s (p.map PyFloat.finite)

/-! ### Elementary facts about `daySum` -/

theorem daySum_nil (d : ℤ) : daySum [] d = 0 := rfl

theorem daySum_append_single (cs : List CoreChunk) (c : CoreChunk) (d : ℤ) :
    daySum (cs ++ [c]) d =
      daySum cs d + (if c.day = d then c.suggested_minutes else 0) := by
  by_cases h : c.day = d <;>
    simp [daySum, List.filter_append, h]

theorem daySum_eq_zero (cs : List CoreChunk) (d : ℤ)
    (h : ∀ c ∈ cs, c.day ≠ d) : daySum cs d = 0 := by
  have : cs.filter (fun c => c.day == d) = [] := by
    rw [List.filter_eq_nil_iff]
    intro c hc
    simpa using h c hc
  simp [daySum, this]

/-! ### The inner loop: divergence, termination, and shape of the output -/

/-- With a non-positive quota, the inner `while` loop never terminates: the
rollover fires every time, the carved chunk is `quota ≤ 0` minutes, and
`remaining` never decreases.  In the fuel model the loop returns
`Option.none` for every amount of fuel. -/
theorem innerLoop_none_of_quota_nonpos (quota : ℤ) (co t l : String)
    (hq : quota ≤ 0) :
    ∀ (fuel : ℕ) (r : ℤ) (st : St) (plan : List CoreChunk),
      0 < r → quota ≤ st.used →
      innerLoop quota co t l fuel r st plan = Option.none := by
  intro fuel
  induction fuel with
  | zero =>
    intro r st plan hr _
    simp only [innerLoop, if_neg (by omega : ¬r ≤ 0)]
  | succ f ih =>
    intro r st plan hr hu
    have hroll : rollover quota st = ⟨st.day + 1, 0⟩ := by
      simp only [rollover, if_pos (by omega : st.used ≥ quota)]
    simp only [innerLoop, if_neg (by omega : ¬r ≤ 0), hroll]
    exact ih _ _ _ (by omega) (by simp; omega)

/-- With a positive quota, fuel `remaining.toNat` always suffices: every
iteration carves at least one minute. -/
theorem innerLoop_isSome (quota : ℤ) (co t l : String) (hq : 1 ≤ quota) :
    ∀ (fuel : ℕ) (r : ℤ) (st : St) (plan : List CoreChunk),
      r.toNat ≤ fuel →
      (innerLoop quota co t l fuel r st plan).isSome = true := by
  intro fuel
  induction fuel with
  | zero =>
    intro r st plan hf
    simp only [innerLoop, if_pos (by omega : r ≤ 0), Option.isSome_some]
  | succ f ih =>
    intro r st plan hf
    by_cases hr : r ≤ 0
    · simp only [innerLoop, if_pos hr, Option.isSome_some]
    · have hu1 : (rollover quota st).used < quota := by
        by_cases h : st.used ≥ quota <;> simp [rollover, h] <;> omega
      simp only [innerLoop, if_neg hr]
      exact ih _ _ _ (by omega)

/-- Shape of one complete run of the inner loop: it appends a non-empty
batch of chunks for the current topic, all carrying the topic's labels and
the break rule, whose minutes sum to `remaining`, and whose first chunk
carves `min remaining (quota - used)` after the day rollover. -/
theorem innerLoop_spec (quota : ℤ) (co t l : String) :
    ∀ (fuel : ℕ) (r : ℤ) (st : St) (plan res : List CoreChunk) (st' : St),
      innerLoop quota co t l fuel r st plan = some (res, st') →
      ∃ cs, res = plan ++ cs ∧
        (∀ c ∈ cs, c.course = co ∧ c.topic = t ∧ c.difficulty = l ∧
          c.ai_hint = pick_hint l ∧
          c.break_after = break_after_rule c.suggested_minutes) ∧
        (0 ≤ r → (cs.map CoreChunk.suggested_minutes).sum = r) ∧
        (r ≤ 0 → cs = []) ∧
        (0 < r →
          cs.head? = some ⟨(rollover quota st).day, co, t, l,
            min r (quota - (rollover quota st).used), pick_hint l,
            break_after_rule (min r (quota - (rollover quota st).used))⟩) := by
  intro fuel
  induction fuel with
  | zero =>
    intro r st plan res st' h
    by_cases hr : r ≤ 0
    · simp only [innerLoop, if_pos hr, Option.some.injEq, Prod.mk.injEq] at h
      obtain ⟨rfl, rfl⟩ := h
      exact ⟨[], by simp, by simp, fun h0 => by simp; omega, fun _ => rfl,
        fun h0 => absurd h0 (by omega)⟩
    · simp only [innerLoop, if_neg hr] at h
      exact absurd h (by simp)
  | succ f ih =>
    intro r st plan res st' h
    by_cases hr : r ≤ 0
    · simp only [innerLoop, if_pos hr, Option.some.injEq, Prod.mk.injEq] at h
      obtain ⟨rfl, rfl⟩ := h
      exact ⟨[], by simp, by simp, fun h0 => by simp; omega, fun _ => rfl,
        fun h0 => absurd h0 (by omega)⟩
    · simp only [innerLoop, if_neg hr] at h
      obtain ⟨cs2, hres, hall, hsum, _, _⟩ := ih _ _ _ _ _ h
      have hchunk_le : min r (quota - (rollover quota st).used) ≤ r :=
        min_le_left _ _
      refine ⟨⟨(rollover quota st).day, co, t, l,
          min r (quota - (rollover quota st).used), pick_hint l,
          break_after_rule (min r (quota - (rollover quota st).used))⟩ :: cs2,
        ?_, ?_, ?_, ?_, ?_⟩
      · rw [hres, List.append_assoc, List.singleton_append]
      · intro c hc
        rcases List.mem_cons.mp hc with rfl | hc2
        · exact ⟨rfl, rfl, rfl, rfl, rfl⟩
        · exact hall c hc2
      · intro _
        have hs2 : ((cs2.map CoreChunk.suggested_minutes).sum) =
            r - min r (quota - (rollover quota st).used) := hsum (by omega)
        simp only [List.map_cons, List.sum_cons, hs2]
        omega
      · intro h0
        exact absurd h0 (by omega)
      · intro _
        rfl

/-! ### The loop invariant tying the emitted plan to the counters -/

/-- Invariant maintained by the generation loops (for a positive quota):
the counters are in range, every emitted chunk is between 1 minute and the
quota, day numbers are at least 1 and non-decreasing, `used_today` equals
the minutes already scheduled on the current day, and no day is scheduled
beyond the quota. -/
structure Inv (quota : ℤ) (plan : List CoreChunk) (st : St) : Prop where
  used_nonneg : 0 ≤ st.used
  used_le : st.used ≤ quota
  day_ge : 1 ≤ st.day
  mins_ge : ∀ c ∈ plan, 1 ≤ c.suggested_minutes
  mins_le : ∀ c ∈ plan, c.suggested_minutes ≤ quota
  days_ge : ∀ c ∈ plan, 1 ≤ c.day
  days_le : ∀ c ∈ plan, c.day ≤ st.day
  days_mono : List.Pairwise (· ≤ ·) (plan.map CoreChunk.day)
  current : daySum plan st.day = st.used
  bounded : ∀ d, daySum plan d ≤ quota

theorem Inv_init (quota : ℤ) (hq : 1 ≤ quota) : Inv quota [] ⟨1, 0⟩ := by
  refine ⟨le_refl 0, by show (0:ℤ) ≤ quota; omega, le_refl 1,
      ?_, ?_, ?_, ?_, ?_, rfl, ?_⟩ <;>
    simp [daySum]
  omega

theorem Inv_rollover (quota : ℤ) (plan : List CoreChunk) (st : St)
    (hq : 1 ≤ quota) (hI : Inv quota plan st) :
    Inv quota plan (rollover quota st) ∧ st.day ≤ (rollover quota st).day := by
  by_cases h : st.used ≥ quota
  · have hroll : rollover quota st = ⟨st.day + 1, 0⟩ := by
      simp only [rollover, if_pos h]
    rw [hroll]
    refine ⟨⟨le_refl 0, by show (0:ℤ) ≤ quota; omega,
      by show 1 ≤ st.day + 1; have := hI.day_ge; omega,
      hI.mins_ge, hI.mins_le, hI.days_ge,
      fun c hc => by have := hI.days_le c hc; simp; omega,
      hI.days_mono, ?_, hI.bounded⟩, by simp⟩
    exact daySum_eq_zero _ _ fun c hc => by
      have := hI.days_le c hc; simp; omega
  · have hroll : rollover quota st = st := by
      simp only [rollover, if_neg h]
    rw [hroll]
    exact ⟨hI, le_refl _⟩

/-- One-step preservation: emitting a chunk after the rollover keeps the
invariant. -/
theorem Inv_emit (quota : ℤ) (plan : List CoreChunk) (st1 : St) (r : ℤ)
    (co t l : String)
    (_hq : 1 ≤ quota) (hr : 1 ≤ r) (hu : st1.used < quota)
    (hI : Inv quota plan st1) :
    Inv quota
      (plan ++ [⟨st1.day, co, t, l, min r (quota - st1.used), pick_hint l,
        break_after_rule (min r (quota - st1.used))⟩])
      ⟨st1.day, st1.used + min r (quota - st1.used)⟩ := by
  set chunk := min r (quota - st1.used) with hchunk
  have h1 : 1 ≤ chunk := by rw [hchunk]; have := hI.used_nonneg; omega
  have h2 : chunk ≤ quota - st1.used := by rw [hchunk]; omega
  have hnn := hI.used_nonneg
  refine ⟨by simp; omega, by simp; omega, hI.day_ge, ?_, ?_, ?_, ?_, ?_, ?_, ?_⟩
  · intro c hc
    rcases List.mem_append.mp hc with hc1 | hc2
    · exact hI.mins_ge c hc1
    · rcases List.mem_singleton.mp hc2 with rfl
      exact h1
  · intro c hc
    rcases List.mem_append.mp hc with hc1 | hc2
    · exact hI.mins_le c hc1
    · rcases List.mem_singleton.mp hc2 with rfl
      simp; omega
  · intro c hc
    rcases List.mem_append.mp hc with hc1 | hc2
    · exact hI.days_ge c hc1
    · rcases List.mem_singleton.mp hc2 with rfl
      exact hI.day_ge
  · intro c hc
    rcases List.mem_append.mp hc with hc1 | hc2
    · exact hI.days_le c hc1
    · rcases List.mem_singleton.mp hc2 with rfl
      simp
  · rw [List.map_append, List.pairwise_append]
    refine ⟨hI.days_mono, by simp, ?_⟩
    intro x hx y hy
    simp only [List.map_cons, List.map_nil, List.mem_singleton] at hy
    subst hy
    obtain ⟨c, hc, rfl⟩ := List.mem_map.mp hx
    exact hI.days_le c hc
  · rw [daySum_append_single]
    simp only [if_pos rfl]
    have := hI.current
    simp at this ⊢
    omega
  · intro d
    rw [daySum_append_single]
    by_cases hd : st1.day = d
    · subst hd
      simp only [if_pos rfl]
      have := hI.current
      omega
    · rw [if_neg (by simpa using hd)]
      simpa using hI.bounded d

/-- Full-run preservation of the invariant by the inner loop. -/
theorem innerLoop_inv (quota : ℤ) (co t l : String) (hq : 1 ≤ quota) :
    ∀ (fuel : ℕ) (r : ℤ) (st : St) (plan res : List CoreChunk) (st' : St),
      innerLoop quota co t l fuel r st plan = some (res, st') →
      Inv quota plan st → Inv quota res st' ∧ st.day ≤ st'.day := by
  intro fuel
  induction fuel with
  | zero =>
    intro r st plan res st' h hI
    by_cases hr : r ≤ 0
    · simp only [innerLoop, if_pos hr, Option.some.injEq, Prod.mk.injEq] at h
      obtain ⟨rfl, rfl⟩ := h
      exact ⟨hI, le_refl _⟩
    · simp only [innerLoop, if_neg hr] at h
      exact absurd h (by simp)
  | succ f ih =>
    intro r st plan res st' h hI
    by_cases hr : r ≤ 0
    · simp only [innerLoop, if_pos hr, Option.some.injEq, Prod.mk.injEq] at h
      obtain ⟨rfl, rfl⟩ := h
      exact ⟨hI, le_refl _⟩
    · simp only [innerLoop, if_neg hr] at h
      obtain ⟨hI1, hd1⟩ := Inv_rollover quota plan st hq hI
      have hu1 : (rollover quota st).used < quota := by
        by_cases hcase : st.used ≥ quota <;> simp [rollover, hcase] <;> omega
      have hI2 := Inv_emit quota plan (rollover quota st) r co t l hq
        (by omega) hu1 hI1
      obtain ⟨hI3, hd3⟩ := ih _ _ _ _ _ h hI2
      exact ⟨hI3, by simp at hd3; omega⟩

/-! ### The outer loop over the topics -/

/-- The outer loop preserves the invariant. -/
theorem planTopics_inv (quota base : ℤ) (courses diffs : List String)
    (hq : 1 ≤ quota) :
    ∀ (topics : List String) (i : ℕ) (st : St) (plan res : List CoreChunk)
      (st' : St),
      planTopics quota base courses diffs topics i st plan = some (res, st') →
      Inv quota plan st → Inv quota res st' ∧ st.day ≤ st'.day := by
  intro topics
  induction topics with
  | nil =>
    intro i st plan res st' h hI
    simp only [planTopics, Option.some.injEq, Prod.mk.injEq] at h
    obtain ⟨rfl, rfl⟩ := h
    exact ⟨hI, le_refl _⟩
  | cons topic rest ih =>
    intro i st plan res st' h hI
    simp only [planTopics] at h
    cases hinner : innerLoop quota (courses.getD i "General") topic
        (diffs.getD i "medium")
        (suggestedFor base (diffs.getD i "medium")).toNat
        (suggestedFor base (diffs.getD i "medium")) st plan with
    | none => rw [hinner] at h; exact absurd h (by simp)
    | some p =>
      obtain ⟨plan2, st2⟩ := p
      rw [hinner] at h
      obtain ⟨hI2, hd2⟩ := innerLoop_inv quota _ _ _ hq _ _ _ _ _ _ hinner hI
      obtain ⟨hI3, hd3⟩ := ih _ _ _ _ _ h hI2
      exact ⟨hI3, le_trans hd2 hd3⟩

/-- With a positive quota the outer loop always terminates successfully. -/
theorem planTopics_isSome (quota base : ℤ) (courses diffs : List String)
    (hq : 1 ≤ quota) :
    ∀ (topics : List String) (i : ℕ) (st : St) (plan : List CoreChunk),
      (planTopics quota base courses diffs topics i st plan).isSome = true := by
  intro topics
  induction topics with
  | nil => intro i st plan; simp [planTopics]
  | cons topic rest ih =>
    intro i st plan
    have hsome := innerLoop_isSome quota (courses.getD i "General") topic
      (diffs.getD i "medium") hq
      (suggestedFor base (diffs.getD i "medium")).toNat
      (suggestedFor base (diffs.getD i "medium")) st plan (le_refl _)
    obtain ⟨p, hp⟩ := Option.isSome_iff_exists.mp hsome
    obtain ⟨plan2, st2⟩ := p
    simp only [planTopics, hp]
    exact ih _ _ _

/-- With a non-positive quota the outer loop diverges as soon as there is a
topic to schedule (modelled by `Option.none` for the fuel given). -/
theorem planTopics_none_of_quota_nonpos (quota base : ℤ)
    (courses diffs : List String) (hq : quota ≤ 0)
    (topic : String) (rest : List String) (i : ℕ) (st : St)
    (plan : List CoreChunk) (hu : quota ≤ st.used) :
    planTopics quota base courses diffs (topic :: rest) i st plan =
      Option.none := by
  have hnone := innerLoop_none_of_quota_nonpos quota (courses.getD i "General")
    topic (diffs.getD i "medium") hq
    (suggestedFor base (diffs.getD i "medium")).toNat
    (suggestedFor base (diffs.getD i "medium")) st plan
    (by have : (15:ℤ) ≤ suggestedFor base (diffs.getD i "medium") :=
          le_max_left _ _
        omega) hu
  simp only [planTopics, hnone]

/-- Decomposition of a successful outer-loop run into one non-empty block
of chunks per topic, in input order, each block carrying its topic's
labels and summing to the topic's suggested minutes. -/
theorem planTopics_blocks (quota base : ℤ) (courses diffs : List String) :
    ∀ (topics : List String) (i : ℕ) (st : St) (plan res : List CoreChunk)
      (st' : St),
      planTopics quota base courses diffs topics i st plan = some (res, st') →
      ∃ blocks : List (List CoreChunk),
        res = plan ++ blocks.flatten ∧
        blocks.length = topics.length ∧
        ∀ j, j < topics.length →
          blocks.getD j [] ≠ [] ∧
          (∀ c ∈ blocks.getD j [],
            c.course = courses.getD (i + j) "General" ∧
            c.topic = topics.getD j "" ∧
            c.difficulty = diffs.getD (i + j) "medium" ∧
            c.ai_hint = pick_hint (diffs.getD (i + j) "medium") ∧
            c.break_after = break_after_rule c.suggested_minutes) ∧
          ((blocks.getD j []).map CoreChunk.suggested_minutes).sum =
            suggestedFor base (diffs.getD (i + j) "medium") := by
  intro topics
  induction topics with
  | nil =>
    intro i st plan res st' h
    simp only [planTopics, Option.some.injEq, Prod.mk.injEq] at h
    obtain ⟨rfl, rfl⟩ := h
    exact ⟨[], by simp, rfl, fun j hj => absurd hj (by simp)⟩
  | cons topic rest ih =>
    intro i st plan res st' h
    simp only [planTopics] at h
    cases hinner : innerLoop quota (courses.getD i "General") topic
        (diffs.getD i "medium")
        (suggestedFor base (diffs.getD i "medium")).toNat
        (suggestedFor base (diffs.getD i "medium")) st plan with
    | none => rw [hinner] at h; exact absurd h (by simp)
    | some p =>
      obtain ⟨plan2, st2⟩ := p
      rw [hinner] at h
      have hsug : (15:ℤ) ≤ suggestedFor base (diffs.getD i "medium") :=
        le_max_left _ _
      obtain ⟨cs, hplan2, hfields, hsum, _, hhead⟩ :=
        innerLoop_spec quota _ _ _ _ _ _ _ _ _ hinner
      obtain ⟨blocks, hres, hlen, hspec⟩ := ih _ _ _ _ _ h
      refine ⟨cs :: blocks, ?_, by simpa using hlen, ?_⟩
      · rw [hres, hplan2, List.flatten_cons, List.append_assoc]
      · intro j hj
        cases j with
        | zero =>
          simp only [List.getD_cons_zero, Nat.add_zero, List.getD_cons_zero]
          have hne : cs ≠ [] := by
            intro hcs
            rw [hcs] at hhead
            exact absurd (hhead (by omega)) (by simp)
          exact ⟨hne, hfields, hsum (by omega)⟩
        | succ j' =>
          have hj' : j' < rest.length := by simpa using hj
          obtain ⟨hne, hf, hs⟩ := hspec j' hj'
          have hidx : i + (j' + 1) = i + 1 + j' := by omega
          simp only [List.getD_cons_succ, hidx]
          exact ⟨hne, hf, hs⟩

/-! ### From the outer loop to `generate_simple_plan` -/

/-- A successful run of the core either had no topics (empty plan) or a
positive quota, and then the plan is a successful outer-loop run started at
day 1 with nothing used. -/
theorem generateCoreQ_elim (quota : ℤ) (courses topics diffs : List String)
    (core : List CoreChunk)
    (h : generateCoreQ quota courses topics diffs = some core) :
    (topics = [] ∧ core = []) ∨
    (topics ≠ [] ∧ 1 ≤ quota ∧
      ∃ stF, planTopics quota (max 20 (Int.fdiv quota (topics.length : ℤ)))
          courses diffs topics 0 ⟨1, 0⟩ [] = some (core, stF)) := by
  by_cases ht : topics = []
  · subst ht
    have hc : ([] : List CoreChunk) = core := by simpa [generateCoreQ] using h
    exact Or.inl ⟨rfl, hc.symm⟩
  · simp only [generateCoreQ, if_neg ht] at h
    cases hp : planTopics quota (max 20 (Int.fdiv quota (topics.length : ℤ)))
        courses diffs topics 0 ⟨1, 0⟩ [] with
    | none => rw [hp] at h; exact absurd h (by simp)
    | some p =>
      obtain ⟨res, stF⟩ := p
      rw [hp] at h
      have hcore : res = core := by simpa using h
      subst hcore
      have hq : 1 ≤ quota := by
        by_contra hq
        obtain ⟨topic, rest, rfl⟩ := List.exists_cons_of_ne_nil ht
        rw [planTopics_none_of_quota_nonpos _ _ _ _ (by omega) _ _ _ _ _
          (by show quota ≤ (0:ℤ); omega)] at hp
        exact absurd hp (by simp)
      exact Or.inr ⟨ht, hq, ⟨stF, rfl⟩⟩

/-- With a positive quota the core always succeeds. -/
theorem generateCoreQ_isSome (quota : ℤ) (courses topics diffs : List String)
    (hq : 1 ≤ quota) :
    (generateCoreQ quota courses topics diffs).isSome = true := by
  by_cases ht : topics = []
  · simp [generateCoreQ, ht]
  · simp only [generateCoreQ, if_neg ht]
    have := planTopics_isSome quota
      (max 20 (Int.fdiv quota (topics.length : ℤ))) courses diffs hq topics
      0 ⟨1, 0⟩ []
    obtain ⟨p, hp⟩ := Option.isSome_iff_exists.mp this
    simp [hp]

/-- The first chunk of a successful run carves
`min suggested quota` minutes of the first topic on day 1. -/
theorem planTopics_head (quota base : ℤ) (courses diffs : List String)
    (topic : String) (rest : List String) (core : List CoreChunk) (stF : St)
    (hq : 1 ≤ quota)
    (h : planTopics quota base courses diffs (topic :: rest) 0 ⟨1, 0⟩ [] =
      some (core, stF)) :
    core.head? = some ⟨1, courses.getD 0 "General", topic,
      diffs.getD 0 "medium",
      min (suggestedFor base (diffs.getD 0 "medium")) quota,
      pick_hint (diffs.getD 0 "medium"),
      break_after_rule
        (min (suggestedFor base (diffs.getD 0 "medium")) quota)⟩ := by
  simp only [planTopics] at h
  cases hinner : innerLoop quota (courses.getD 0 "General") topic
      (diffs.getD 0 "medium")
      (suggestedFor base (diffs.getD 0 "medium")).toNat
      (suggestedFor base (diffs.getD 0 "medium")) ⟨1, 0⟩ [] with
  | none => rw [hinner] at h; exact absurd h (by simp)
  | some p =>
    obtain ⟨plan2, st2⟩ := p
    rw [hinner] at h
    obtain ⟨cs, hplan2, _, _, _, hhead⟩ :=
      innerLoop_spec quota _ _ _ _ _ _ _ _ _ hinner
    obtain ⟨blocks, hres, _, _⟩ :=
      planTopics_blocks quota base courses diffs rest _ _ _ _ _ h
    have hsug : (15:ℤ) ≤ suggestedFor base (diffs.getD 0 "medium") :=
      le_max_left _ _
    have hroll : rollover quota ⟨1, 0⟩ = ⟨1, 0⟩ := by
      simp only [rollover, if_neg (by show ¬((0:ℤ) ≥ quota); omega)]
    rw [hroll] at hhead
    have hhead2 := hhead (by omega)
    rw [hres, hplan2, List.nil_append]
    cases cs with
    | nil => exact absurd hhead2 (by simp)
    | cons c0 cs' =>
      simp only [List.head?_cons, Option.some.injEq] at hhead2
      subst hhead2
      simp only [List.cons_append, List.head?_cons, Option.some.injEq]
      congr 1 <;> simp

/-- The whole computation depends on `daily_hours` only through
`parseHours`. -/
theorem generate_eq_of_parse_eq (courses topics diffs : List String)
    (a b : HoursVal) (h : parseHours a = parseHours b) :
    generate_simple_plan courses topics diffs a =
      generate_simple_plan courses topics diffs b := by
  unfold generate_simple_plan generateCore dailyQuota
  rw [h]

/-- On the finite-parse fragment the full parse agrees with `parseHours`. -/
theorem parseHoursFull_toInput (hv : HoursVal) :
    parseHoursFull hv.toInput = .finite (parseHours hv) := by
  cases hv with
  | none => rfl
  | num q =>
    by_cases h : q = 0
    · subst h; rfl
    · simp [HoursVal.toInput, parseHoursFull, parseHours, h]
  | str s p =>
    by_cases hs : s = ""
    · subst hs; simp [HoursVal.toInput, parseHoursFull, parseHours]
    · cases p with
      | none => simp [HoursVal.toInput, parseHoursFull, parseHours, hs]
      | some q => simp [HoursVal.toInput, parseHoursFull, parseHours, hs]

/-- On the finite-parse fragment `int(hours * 60)` cannot raise and
computes `dailyQuota`. -/
theorem dailyQuotaFull_toInput (hv : HoursVal) :
    dailyQuotaFull hv.toInput = some (dailyQuota hv) := by
  simp [dailyQuotaFull, parseHoursFull_toInput, dailyQuota]

/-- The full model refines the finite-parse one: on `HoursVal` inputs no
exception is possible, and the outcome is `.hangs` exactly where the
restricted model returns `Option.none`. -/
theorem generate_full_refines (courses topics diffs : List String)
    (hv : HoursVal) :
    generate_simple_plan_full courses topics diffs hv.toInput =
      (match generate_simple_plan courses topics diffs hv with
       | some plan => .ok plan
       | Option.none => .hangs) := by
  unfold generate_simple_plan_full generate_simple_plan generateCore
  rw [dailyQuotaFull_toInput]
  cases h : generateCoreQ (dailyQuota hv) courses topics diffs with
  | none => simp [h]
  | some core => simp [h]

/-- The inner loop only ever appends chunks whose `break_after` follows the
break rule. -/
theorem innerLoop_all_break (quota : ℤ) (co t l : String) (fuel : ℕ) (r : ℤ)
    (st : St) (plan res : List CoreChunk) (st' : St)
    (h : innerLoop quota co t l fuel r st plan = some (res, st'))
    (hplan : ∀ c ∈ plan, c.break_after = break_after_rule c.suggested_minutes) :
    ∀ c ∈ res, c.break_after = break_after_rule c.suggested_minutes := by
  obtain ⟨cs, rfl, hfields, _, _, _⟩ := innerLoop_spec quota _ _ _ _ _ _ _ _ _ h
  intro c hc
  rcases List.mem_append.mp hc with h1 | h2
  · exact hplan c h1
  · exact (hfields c h2).2.2.2.2

/-- The outer loop only ever appends chunks whose `break_after` follows the
break rule. -/
theorem planTopics_all_break (quota base : ℤ) (courses diffs : List String) :
    ∀ (topics : List String) (i : ℕ) (st : St) (plan res : List CoreChunk)
      (st' : St),
      planTopics quota base courses diffs topics i st plan = some (res, st') →
      (∀ c ∈ plan, c.break_after = break_after_rule c.suggested_minutes) →
      ∀ c ∈ res, c.break_after = break_after_rule c.suggested_minutes := by
  intro topics
  induction topics with
  | nil =>
    intro i st plan res st' h hplan
    simp only [planTopics, Option.some.injEq, Prod.mk.injEq] at h
    obtain ⟨rfl, rfl⟩ := h
    exact hplan
  | cons topic rest ih =>
    intro i st plan res st' h hplan
    simp only [planTopics] at h
    cases hinner : innerLoop quota (courses.getD i "General") topic
        (diffs.getD i "medium")
        (suggestedFor base (diffs.getD i "medium")).toNat
        (suggestedFor base (diffs.getD i "medium")) st plan with
    | none => rw [hinner] at h; exact absurd h (by simp)
    | some p =>
      obtain ⟨plan2, st2⟩ := p
      rw [hinner] at h
      exact ih _ _ _ _ _ h (innerLoop_all_break _ _ _ _ _ _ _ _ _ _ hinner hplan)

/-! ### The claims -/

/-- C1, counterexample: with one hard topic and one hour a day, the single
input topic yields TWO chunks, split across day 1 (60 min) and day 2
(10 min) — the code has no `break` in the inner loop, so a topic whose
suggested minutes exceed the daily quota is split across days, and the
plan does not contain exactly one chunk per topic. -/
theorem C1_counterexample :
    generate_simple_plan ["Math"] ["Algebra"] ["hard"] (.num 1) =
      some [⟨"Day 1", "Math", "Algebra", "hard", 60,
              "Deep focus 🔥 - Break into smaller parts", some 10⟩,
            ⟨"Day 2", "Math", "Algebra", "hard", 10,
              "Deep focus 🔥 - Break into smaller parts", Option.none⟩] ∧
    (generate_simple_plan ["Math"] ["Algebra"] ["hard"] (.num 1)).map
      List.length ≠ some 1 := by
  exact ⟨by decide, by decide⟩

/-- C2: the claim that `generate_simple_plan` terminates on EVERY input is
wrong.  With `daily_hours = "0"` (truthy, parses to 0) the quota is 0, and
the inner `while` loop never decreases `remaining`: for every amount of
fuel the model returns `Option.none` (the concrete instance below is the
loop for topic "T" with its suggested 20 minutes, as reached from the
failing call `generate_simple_plan [] ["T"] [] "0"`). -/
theorem C2_nontermination :
    dailyQuota (.str "0" (some 0)) = 0 ∧
    (∀ (fuel : ℕ) (day : ℤ) (plan : List CoreChunk),
      innerLoop 0 "General" "T" "medium" fuel 20 ⟨day, 0⟩ plan =
        Option.none) ∧
    generate_simple_plan [] ["T"] [] (.str "0" (some 0)) = Option.none := by
  refine ⟨by decide, ?_, by decide⟩
  intro fuel day plan
  exact innerLoop_none_of_quota_nonpos 0 _ _ _ (le_refl 0) fuel 20 ⟨day, 0⟩
    plan (by omega) (le_refl 0)

/-- C3, counterexample: a `daily_hours` value that parses to a number ≤ 0
but is truthy (here the number `-1`) is NOT replaced by the 2-hour
default: the quota becomes `-60` and the call diverges, while with the
default it would return a one-chunk plan. -/
theorem C3_counterexample :
    dailyQuota (.num (-1)) = -60 ∧
    generate_simple_plan [] ["T"] [] (.num (-1)) = Option.none ∧
    generate_simple_plan [] ["T"] [] (.num 2) =
      some [⟨"Day 1", "General", "T", "medium", 120,
        "Steady pace 🚀 - Focus on core concepts", some 10⟩] := by
  exact ⟨by decide, by decide, by decide⟩

/-- C3 (amended): the 2-hour default applies exactly to the falsy values
(`None`, numeric `0`, the empty string) and to unparsable truthy strings;
the 2-hour default gives a 120-minute daily quota. -/
theorem C3_default_hours (courses topics diffs : List String) (s : String)
    (hs : s ≠ "") :
    generate_simple_plan courses topics diffs .none =
      generate_simple_plan courses topics diffs (.num 2) ∧
    generate_simple_plan courses topics diffs (.num 0) =
      generate_simple_plan courses topics diffs (.num 2) ∧
    generate_simple_plan courses topics diffs (.str "" Option.none) =
      generate_simple_plan courses topics diffs (.num 2) ∧
    generate_simple_plan courses topics diffs (.str s Option.none) =
      generate_simple_plan courses topics diffs (.num 2) ∧
    dailyQuota (.num 2) = 120 := by
  have h2 : parseHours (.num 2) = 2 := by norm_num [parseHours]
  refine ⟨?_, ?_, ?_, ?_, by decide⟩ <;>
    apply generate_eq_of_parse_eq <;>
    simp [parseHours, h2, hs]

theorem C3_default_hours_witness :
    ("abc" : String) ≠ "" ∧
    (generate_simple_plan ["A"] ["T"] ["easy"] .none =
      generate_simple_plan ["A"] ["T"] ["easy"] (.num 2) ∧
    generate_simple_plan ["A"] ["T"] ["easy"] (.num 0) =
      generate_simple_plan ["A"] ["T"] ["easy"] (.num 2) ∧
    generate_simple_plan ["A"] ["T"] ["easy"] (.str "" Option.none) =
      generate_simple_plan ["A"] ["T"] ["easy"] (.num 2) ∧
    generate_simple_plan ["A"] ["T"] ["easy"] (.str "abc" Option.none) =
      generate_simple_plan ["A"] ["T"] ["easy"] (.num 2) ∧
    dailyQuota (.num 2) = 120) :=
  ⟨by decide, C3_default_hours ["A"] ["T"] ["easy"] "abc" (by decide)⟩

/-- C4, counterexample: the expected output given in the claim is wrong —
the call returns three chunks, not two. -/
theorem C4_counterexample :
    (generate_simple_plan ["Phys", "Phys"] ["Motion", "Energy"]
      ["hard", "hard"] (.num 1)).map List.length = some 3 := by
  decide

/-- C4 (amended): the actual output for that input: quota 60, base 30,
suggested 40 per topic; Motion gets one 40-minute chunk on day 1 with a
5-minute break (40 < 60, so not 10), Energy gets the remaining 20 minutes
of day 1 and 20 more minutes on day 2, both without a break. -/
theorem C4_actual_output :
    generate_simple_plan ["Phys", "Phys"] ["Motion", "Energy"]
      ["hard", "hard"] (.num 1) =
    some [⟨"Day 1", "Phys", "Motion", "hard", 40,
            "Deep focus 🔥 - Break into smaller parts", some 5⟩,
          ⟨"Day 1", "Phys", "Energy", "hard", 20,
            "Deep focus 🔥 - Break into smaller parts", Option.none⟩,
          ⟨"Day 2", "Phys", "Energy", "hard", 20,
            "Deep focus 🔥 - Break into smaller parts", Option.none⟩] := by
  decide

/-- C1 (amended): for a non-empty topic list and a daily-hours value whose
quota is at least one minute, the plan contains AT LEAST one chunk per
input topic, the chunks of each topic are contiguous and in input order,
and the FIRST chunk of the first topic has size
`min suggestedMinutes dailyQuota`; a topic whose suggested minutes exceed
the remaining quota is split across days rather than truncated. -/
theorem C1_plan_structure (courses topics diffs : List String)
    (dh : HoursVal) (ht : topics ≠ []) (hq : 1 ≤ dailyQuota dh) :
    ∃ (core : List CoreChunk) (blocks : List (List CoreChunk)),
      generateCore courses topics diffs dh = some core ∧
      generate_simple_plan courses topics diffs dh =
        some (core.map render) ∧
      core = blocks.flatten ∧
      blocks.length = topics.length ∧
      (∀ j, j < topics.length →
        blocks.getD j [] ≠ [] ∧
        ∀ c ∈ blocks.getD j [],
          c.course = courses.getD j "General" ∧
          c.topic = topics.getD j "" ∧
          c.difficulty = diffs.getD j "medium") ∧
      core.head? = some ⟨1, courses.getD 0 "General", topics.getD 0 "",
        diffs.getD 0 "medium",
        min (suggestedFor
            (max 20 (Int.fdiv (dailyQuota dh) (topics.length : ℤ)))
            (diffs.getD 0 "medium")) (dailyQuota dh),
        pick_hint (diffs.getD 0 "medium"),
        break_after_rule (min (suggestedFor
            (max 20 (Int.fdiv (dailyQuota dh) (topics.length : ℤ)))
            (diffs.getD 0 "medium")) (dailyQuota dh))⟩ := by
  obtain ⟨core, hcore⟩ := Option.isSome_iff_exists.mp
    (generateCoreQ_isSome (dailyQuota dh) courses topics diffs hq)
  have hcore' : generateCore courses topics diffs dh = some core := hcore
  rcases generateCoreQ_elim _ _ _ _ _ hcore with ⟨h1, _⟩ | ⟨_, _, stF, hp⟩
  · exact absurd h1 ht
  · obtain ⟨blocks, hres, hlen, hspec⟩ :=
      planTopics_blocks _ _ _ _ _ _ _ _ _ _ hp
    rw [List.nil_append] at hres
    refine ⟨core, blocks, hcore', by simp [generate_simple_plan, hcore'],
      hres, hlen, ?_, ?_⟩
    · intro j hj
      obtain ⟨hne, hf, _⟩ := hspec j hj
      refine ⟨hne, fun c hc => ?_⟩
      obtain ⟨h1, h2, h3, _, _⟩ := hf c hc
      exact ⟨by simpa using h1, h2, by simpa using h3⟩
    · obtain ⟨topic, rest, rfl⟩ := List.exists_cons_of_ne_nil ht
      exact planTopics_head _ _ _ _ _ _ _ _ hq hp

theorem C1_plan_structure_witness :
    (["Algebra"] : List String) ≠ [] ∧ 1 ≤ dailyQuota (.num 1) ∧
    ∃ (core : List CoreChunk) (blocks : List (List CoreChunk)),
      generateCore ["Math"] ["Algebra"] ["hard"] (.num 1) = some core ∧
      generate_simple_plan ["Math"] ["Algebra"] ["hard"] (.num 1) =
        some (core.map render) ∧
      core = blocks.flatten ∧
      blocks.length = (["Algebra"] : List String).length ∧
      (∀ j, j < (["Algebra"] : List String).length →
        blocks.getD j [] ≠ [] ∧
        ∀ c ∈ blocks.getD j [],
          c.course = (["Math"] : List String).getD j "General" ∧
          c.topic = (["Algebra"] : List String).getD j "" ∧
          c.difficulty = (["hard"] : List String).getD j "medium") ∧
      core.head? = some ⟨1, (["Math"] : List String).getD 0 "General",
        (["Algebra"] : List String).getD 0 "",
        (["hard"] : List String).getD 0 "medium",
        min (suggestedFor
            (max 20 (Int.fdiv (dailyQuota (.num 1))
              ((["Algebra"] : List String).length : ℤ)))
            ((["hard"] : List String).getD 0 "medium")) (dailyQuota (.num 1)),
        pick_hint ((["hard"] : List String).getD 0 "medium"),
        break_after_rule (min (suggestedFor
            (max 20 (Int.fdiv (dailyQuota (.num 1))
              ((["Algebra"] : List String).length : ℤ)))
            ((["hard"] : List String).getD 0 "medium"))
          (dailyQuota (.num 1)))⟩ :=
  ⟨by decide, by decide,
    C1_plan_structure ["Math"] ["Algebra"] ["hard"] (.num 1)
      (by decide) (by decide)⟩

/-- C5: with a non-empty topic list and a positive daily quota, every
emitted chunk has between 1 minute and the daily quota, and the total
minutes scheduled on any single day — the values the `used_today` counter
runs through — never exceed the daily quota. -/
theorem C5_chunk_bounds (courses topics diffs : List String)
    (dh : HoursVal) (ht : topics ≠ []) (hq : 1 ≤ dailyQuota dh) :
    ∃ core : List CoreChunk,
      generateCore courses topics diffs dh = some core ∧
      generate_simple_plan courses topics diffs dh =
        some (core.map render) ∧
      (∀ c ∈ core, 1 ≤ c.suggested_minutes ∧
        c.suggested_minutes ≤ dailyQuota dh) ∧
      (∀ p ∈ core.map render, 1 ≤ p.suggested_minutes ∧
        p.suggested_minutes ≤ dailyQuota dh) ∧
      (∀ d, daySum core d ≤ dailyQuota dh) := by
  obtain ⟨core, hcore⟩ := Option.isSome_iff_exists.mp
    (generateCoreQ_isSome (dailyQuota dh) courses topics diffs hq)
  have hcore' : generateCore courses topics diffs dh = some core := hcore
  rcases generateCoreQ_elim _ _ _ _ _ hcore with ⟨h1, _⟩ | ⟨_, _, stF, hp⟩
  · exact absurd h1 ht
  · have hI := (planTopics_inv _ _ _ _ hq _ _ _ _ _ _ hp
      (Inv_init _ hq)).1
    refine ⟨core, hcore', by simp [generate_simple_plan, hcore'],
      fun c hc => ⟨hI.mins_ge c hc, hI.mins_le c hc⟩, ?_, hI.bounded⟩
    intro p hp'
    obtain ⟨c, hc, rfl⟩ := List.mem_map.mp hp'
    exact ⟨hI.mins_ge c hc, hI.mins_le c hc⟩

theorem C5_chunk_bounds_witness :
    (["T"] : List String) ≠ [] ∧ 1 ≤ dailyQuota (.num 2) ∧
    ∃ core : List CoreChunk,
      generateCore ["A"] ["T"] ["easy"] (.num 2) = some core ∧
      generate_simple_plan ["A"] ["T"] ["easy"] (.num 2) =
        some (core.map render) ∧
      (∀ c ∈ core, 1 ≤ c.suggested_minutes ∧
        c.suggested_minutes ≤ dailyQuota (.num 2)) ∧
      (∀ p ∈ core.map render, 1 ≤ p.suggested_minutes ∧
        p.suggested_minutes ≤ dailyQuota (.num 2)) ∧
      (∀ d, daySum core d ≤ dailyQuota (.num 2)) :=
  ⟨by decide, by decide,
    C5_chunk_bounds ["A"] ["T"] ["easy"] (.num 2) (by decide) (by decide)⟩

/-- C6: whenever the generator returns a plan, its day numbers are
non-decreasing, the first chunk (when one exists) is on day 1, and each
record's `day` field is the string `"Day N"` for its day number `N`. -/
theorem C6_days (courses topics diffs : List String) (dh : HoursVal)
    (core : List CoreChunk)
    (h : generateCore courses topics diffs dh = some core) :
    generate_simple_plan courses topics diffs dh = some (core.map render) ∧
    List.Pairwise (· ≤ ·) (core.map CoreChunk.day) ∧
    (∀ c ∈ core, render c = ⟨"Day " ++ toString c.day, c.course, c.topic,
      c.difficulty, c.suggested_minutes, c.ai_hint, c.break_after⟩) ∧
    (core ≠ [] → (core.map CoreChunk.day).head? = some 1) := by
  have hgen : generate_simple_plan courses topics diffs dh =
      some (core.map render) := by simp [generate_simple_plan, h]
  rcases generateCoreQ_elim _ _ _ _ _ h with ⟨rfl, rfl⟩ | ⟨ht, hq, stF, hp⟩
  · exact ⟨hgen, by simp, by simp, fun hne => absurd rfl hne⟩
  · have hI := (planTopics_inv _ _ _ _ hq _ _ _ _ _ _ hp
      (Inv_init _ hq)).1
    refine ⟨hgen, hI.days_mono, fun c _ => rfl, ?_⟩
    intro hne
    obtain ⟨topic, rest, rfl⟩ := List.exists_cons_of_ne_nil ht
    have hhead := planTopics_head _ _ _ _ _ _ _ _ hq hp
    cases core with
    | nil => exact absurd rfl hne
    | cons c0 cs =>
      simp only [List.head?_cons, Option.some.injEq] at hhead
      simp [hhead]

theorem C6_days_witness :
    generateCore ["Math"] ["Algebra"] ["easy"] (.num 2) =
      some [⟨1, "Math", "Algebra", "easy", 115,
        "Quick win 🎯 - Build confidence with this topic", some 10⟩] ∧
    (generate_simple_plan ["Math"] ["Algebra"] ["easy"] (.num 2) =
      some (([⟨1, "Math", "Algebra", "easy", 115,
        "Quick win 🎯 - Build confidence with this topic", some 10⟩] :
          List CoreChunk).map render) ∧
    List.Pairwise (· ≤ ·)
      (([⟨1, "Math", "Algebra", "easy", 115,
        "Quick win 🎯 - Build confidence with this topic", some 10⟩] :
          List CoreChunk).map CoreChunk.day) ∧
    (∀ c ∈ ([⟨1, "Math", "Algebra", "easy", 115,
        "Quick win 🎯 - Build confidence with this topic", some 10⟩] :
          List CoreChunk),
      render c = ⟨"Day " ++ toString c.day, c.course, c.topic,
        c.difficulty, c.suggested_minutes, c.ai_hint, c.break_after⟩) ∧
    (([⟨1, "Math", "Algebra", "easy", 115,
        "Quick win 🎯 - Build confidence with this topic", some 10⟩] :
          List CoreChunk) ≠ [] →
      (([⟨1, "Math", "Algebra", "easy", 115,
        "Quick win 🎯 - Build confidence with this topic", some 10⟩] :
          List CoreChunk).map CoreChunk.day).head? = some 1)) :=
  ⟨by decide,
    C6_days ["Math"] ["Algebra"] ["easy"] (.num 2) _ (by decide)⟩

/-- C7: every chunk of every returned plan carries the break rule:
10-minute break for chunks of at least 60 minutes, 5-minute break for
chunks between 30 and 59 minutes, none otherwise. -/
theorem C7_break_rule (courses topics diffs : List String) (dh : HoursVal)
    (res : List PlanRecord)
    (h : generate_simple_plan courses topics diffs dh = some res) :
    ∀ p ∈ res,
      p.break_after = break_after_rule p.suggested_minutes ∧
      break_after_rule p.suggested_minutes =
        (if p.suggested_minutes ≥ 60 then some 10
         else if p.suggested_minutes ≥ 30 then some 5 else Option.none) := by
  unfold generate_simple_plan at h
  cases hcore : generateCore courses topics diffs dh with
  | none => rw [hcore] at h; exact absurd h (by simp)
  | some core =>
    rw [hcore] at h
    have hres : res = core.map render := by simpa using h.symm
    subst hres
    rcases generateCoreQ_elim _ _ _ _ _ hcore with ⟨_, rfl⟩ | ⟨_, _, stF, hp⟩
    · intro p hp'
      exact absurd hp' (by simp)
    · have hall := planTopics_all_break _ _ _ _ _ _ _ _ _ _ hp (by simp)
      intro p hp'
      obtain ⟨c, hc, rfl⟩ := List.mem_map.mp hp'
      exact ⟨hall c hc, rfl⟩

theorem C7_break_rule_witness :
    generate_simple_plan ["A"] ["T"] ["hard"] (.num 1) =
      some [⟨"Day 1", "A", "T", "hard", 60,
              "Deep focus 🔥 - Break into smaller parts", some 10⟩,
            ⟨"Day 2", "A", "T", "hard", 10,
              "Deep focus 🔥 - Break into smaller parts", Option.none⟩] ∧
    ∀ p ∈ ([⟨"Day 1", "A", "T", "hard", 60,
              "Deep focus 🔥 - Break into smaller parts", some 10⟩,
            ⟨"Day 2", "A", "T", "hard", 10,
              "Deep focus 🔥 - Break into smaller parts", Option.none⟩] :
        List PlanRecord),
      p.break_after = break_after_rule p.suggested_minutes ∧
      break_after_rule p.suggested_minutes =
        (if p.suggested_minutes ≥ 60 then some 10
         else if p.suggested_minutes ≥ 30 then some 5 else Option.none) :=
  ⟨by decide, C7_break_rule ["A"] ["T"] ["hard"] (.num 1) _ (by decide)⟩

/-- C8: with a non-empty topic list and positive quota, each topic's
chunks are contiguous and sum exactly to the topic's suggested total
`max 15 (base + d)`, with `base = max 20 (quota // topicCount)` and
`d = -5` for easy, `+10` for hard and `0` otherwise. -/
theorem C8_topic_totals (courses topics diffs : List String)
    (dh : HoursVal) (ht : topics ≠ []) (hq : 1 ≤ dailyQuota dh) :
    diffAdjust "easy" = -5 ∧ diffAdjust "hard" = 10 ∧
    diffAdjust "medium" = 0 ∧
    (∀ lvl, lvl ≠ "easy" → lvl ≠ "hard" → diffAdjust lvl = 0) ∧
    ∃ (core : List CoreChunk) (blocks : List (List CoreChunk)),
      generateCore courses topics diffs dh = some core ∧
      core = blocks.flatten ∧
      blocks.length = topics.length ∧
      ∀ j, j < topics.length →
        (∀ c ∈ blocks.getD j [], c.topic = topics.getD j "") ∧
        ((blocks.getD j []).map CoreChunk.suggested_minutes).sum =
          max 15 (max 20 (Int.fdiv (dailyQuota dh) (topics.length : ℤ)) +
            diffAdjust (diffs.getD j "medium")) := by
  refine ⟨by decide, by decide, by decide,
    fun lvl h1 h2 => by simp [diffAdjust, h1, h2], ?_⟩
  obtain ⟨core, hcore⟩ := Option.isSome_iff_exists.mp
    (generateCoreQ_isSome (dailyQuota dh) courses topics diffs hq)
  have hcore' : generateCore courses topics diffs dh = some core := hcore
  rcases generateCoreQ_elim _ _ _ _ _ hcore with ⟨h1, _⟩ | ⟨_, _, stF, hp⟩
  · exact absurd h1 ht
  · obtain ⟨blocks, hres, hlen, hspec⟩ :=
      planTopics_blocks _ _ _ _ _ _ _ _ _ _ hp
    rw [List.nil_append] at hres
    refine ⟨core, blocks, hcore', hres, hlen, ?_⟩
    intro j hj
    obtain ⟨_, hf, hsum⟩ := hspec j hj
    refine ⟨fun c hc => (hf c hc).2.1, ?_⟩
    have : suggestedFor
        (max 20 (Int.fdiv (dailyQuota dh) (topics.length : ℤ)))
        (diffs.getD (0 + j) "medium") =
      max 15 (max 20 (Int.fdiv (dailyQuota dh) (topics.length : ℤ)) +
        diffAdjust (diffs.getD j "medium")) := by
      simp [suggestedFor]
    rw [← this]
    exact hsum

theorem C8_topic_totals_witness :
    (["Motion", "Energy"] : List String) ≠ [] ∧
    1 ≤ dailyQuota (.num 1) ∧
    (diffAdjust "easy" = -5 ∧ diffAdjust "hard" = 10 ∧
    diffAdjust "medium" = 0 ∧
    (∀ lvl, lvl ≠ "easy" → lvl ≠ "hard" → diffAdjust lvl = 0) ∧
    ∃ (core : List CoreChunk) (blocks : List (List CoreChunk)),
      generateCore ["Phys", "Phys"] ["Motion", "Energy"] ["hard", "hard"]
        (.num 1) = some core ∧
      core = blocks.flatten ∧
      blocks.length = (["Motion", "Energy"] : List String).length ∧
      ∀ j, j < (["Motion", "Energy"] : List String).length →
        (∀ c ∈ blocks.getD j [],
          c.topic = (["Motion", "Energy"] : List String).getD j "") ∧
        ((blocks.getD j []).map CoreChunk.suggested_minutes).sum =
          max 15 (max 20 (Int.fdiv (dailyQuota (.num 1))
              ((["Motion", "Energy"] : List String).length : ℤ)) +
            diffAdjust ((["hard", "hard"] : List String).getD j "medium"))) :=
  ⟨by decide, by decide,
    C8_topic_totals ["Phys", "Phys"] ["Motion", "Energy"] ["hard", "hard"]
      (.num 1) (by decide) (by decide)⟩

/-- C10: when the courses list (or the difficulties list) is shorter than
the topics list, every topic still gets its non-empty block of chunks, and
the indices beyond the shorter list fall back to course "General"
(respectively difficulty "medium"). -/
theorem C10_short_lists (courses topics diffs : List String)
    (dh : HoursVal) (core : List CoreChunk)
    (h : generateCore courses topics diffs dh = some core) :
    ∃ blocks : List (List CoreChunk),
      core = blocks.flatten ∧
      blocks.length = topics.length ∧
      ∀ j, j < topics.length →
        blocks.getD j [] ≠ [] ∧
        (courses.length ≤ j → ∀ c ∈ blocks.getD j [],
          c.course = "General") ∧
        (diffs.length ≤ j → ∀ c ∈ blocks.getD j [],
          c.difficulty = "medium") := by
  rcases generateCoreQ_elim _ _ _ _ _ h with ⟨rfl, rfl⟩ | ⟨_, _, stF, hp⟩
  · exact ⟨[], by simp, rfl, fun j hj => absurd hj (by simp)⟩
  · obtain ⟨blocks, hres, hlen, hspec⟩ :=
      planTopics_blocks _ _ _ _ _ _ _ _ _ _ hp
    rw [List.nil_append] at hres
    refine ⟨blocks, hres, hlen, ?_⟩
    intro j hj
    obtain ⟨hne, hf, _⟩ := hspec j hj
    refine ⟨hne, ?_, ?_⟩
    · intro hcj c hc
      have hcc := (hf c hc).1
      rw [List.getD_eq_default _ _ (by omega)] at hcc
      exact hcc
    · intro hdj c hc
      have hcd := (hf c hc).2.2.1
      rw [List.getD_eq_default _ _ (by omega)] at hcd
      exact hcd

theorem C10_short_lists_witness :
    generateCore ["A"] ["T1", "T2"] [] (.num 2) =
      some [⟨1, "A", "T1", "medium", 60,
              "Steady pace 🚀 - Focus on core concepts", some 10⟩,
            ⟨1, "General", "T2", "medium", 60,
              "Steady pace 🚀 - Focus on core concepts", some 10⟩] ∧
    ∃ blocks : List (List CoreChunk),
      ([⟨1, "A", "T1", "medium", 60,
          "Steady pace 🚀 - Focus on core concepts", some 10⟩,
        ⟨1, "General", "T2", "medium", 60,
          "Steady pace 🚀 - Focus on core concepts", some 10⟩] :
        List CoreChunk) = blocks.flatten ∧
      blocks.length = (["T1", "T2"] : List String).length ∧
      ∀ j, j < (["T1", "T2"] : List String).length →
        blocks.getD j [] ≠ [] ∧
        ((["A"] : List String).length ≤ j → ∀ c ∈ blocks.getD j [],
          c.course = "General") ∧
        (([] : List String).length ≤ j → ∀ c ∈ blocks.getD j [],
          c.difficulty = "medium") :=
  ⟨by decide,
    C10_short_lists ["A"] ["T1", "T2"] [] (.num 2) _ (by decide)⟩

end StudyPlanner
